import Mathlib

/-!
Shallow embedding of the bitboard chess board model and its FEN codec
(`board.py`): square/file/rank addressing, piece and castling enumerations,
bitboards as natural numbers, the move-notation renderer, and the `Board`
aggregate with FEN parse and serialize.

Enumerations are embedded as `Fin` types carrying the source ordinal values
(`Piece` = 0..11, `Color` = 0..1, ...); bitboards and flag sets are `Nat`
values manipulated with `<<<`, `|||`, `&&&`, `testBit`. Fallible parsing
returns `Except FENErr _`, with one error kind per distinct failure site of
the source (`InvalidFEN` for the 6-field unpack, generic lookup / numeric
failures mapped to their own kinds).
-/

-- § Addressing (square_from, file_of, rank_of in the source)

def square_from (file rank : Nat) : Nat := rank <<< 3 ||| file

def file_of (square : Nat) : Nat := square &&& 7

def rank_of (square : Nat) : Nat := square >>> 3

-- § Piece model (piece_from, piece_type_of, color_of in the source)

def piece_from (piece_type : Fin 6) (color : Fin 2) : Fin 12 :=
  ⟨color.val * 6 + piece_type.val, by have h1 := piece_type.isLt; have h2 := color.isLt; omega⟩

def piece_type_of (piece : Fin 12) : Fin 6 :=
  ⟨piece.val % 6, by omega⟩

def color_of (piece : Fin 12) : Fin 2 :=
  ⟨piece.val / 6, by have h := piece.isLt; omega⟩

def bitboard_from (square : Fin 64) : Nat := 1 <<< square.val

-- § Names of enumeration members, as used by `getattr`-style lookup and by
-- serialization. Square index i (rank-major from the top) is named
-- file letter ('a' + i % 8) followed by printed rank digit ('8' - i / 8).

def squareName (i : Nat) : List Char :=
  [Char.ofNat (97 + i % 8), Char.ofNat (56 - i / 8)]

def pieceChars : List Char :=
  ['P', 'N', 'B', 'R', 'Q', 'K', 'p', 'n', 'b', 'r', 'q', 'k']

def pieceChar (p : Fin 12) : Char := pieceChars.getD p.val ' '

/-- `getattr(Piece, ch)`: look a character up among the 12 piece member names. -/
def pieceOfChar (c : Char) : Option (Fin 12) :=
  if c = 'P' then some 0 else if c = 'N' then some 1 else
  if c = 'B' then some 2 else if c = 'R' then some 3 else
  if c = 'Q' then some 4 else if c = 'K' then some 5 else
  if c = 'p' then some 6 else if c = 'n' then some 7 else
  if c = 'b' then some 8 else if c = 'r' then some 9 else
  if c = 'q' then some 10 else if c = 'k' then some 11 else none

/-- Non-member attribute names that `getattr` resolves on the source's
`IntEnum`/`IntFlag` classes (`Color`, `Bitboard`, ...) without raising
`AttributeError`: methods and descriptors inherited from `int`, `Enum` and
the metaclass, such as `mro`, `real` or `__doc__`. The CPython inventory is
larger and version-dependent; this list records a representative sample — the
theorems below need only that such names resolve to a non-member object,
that no member name is among them, and that strings naming no attribute at
all fail the lookup. -/
def classAttrNames : List (List Char) :=
  [['m', 'r', 'o'],
   ['n', 'a', 'm', 'e'],
   ['v', 'a', 'l', 'u', 'e'],
   ['r', 'e', 'a', 'l'],
   ['i', 'm', 'a', 'g'],
   ['n', 'u', 'm', 'e', 'r', 'a', 't', 'o', 'r'],
   ['d', 'e', 'n', 'o', 'm', 'i', 'n', 'a', 't', 'o', 'r'],
   ['b', 'i', 't', '_', 'l', 'e', 'n', 'g', 't', 'h'],
   ['b', 'i', 't', '_', 'c', 'o', 'u', 'n', 't'],
   ['t', 'o', '_', 'b', 'y', 't', 'e', 's'],
   ['f', 'r', 'o', 'm', '_', 'b', 'y', 't', 'e', 's'],
   ['c', 'o', 'n', 'j', 'u', 'g', 'a', 't', 'e'],
   ['_', '_', 'd', 'o', 'c', '_', '_'],
   ['_', '_', 'n', 'a', 'm', 'e', '_', '_'],
   ['_', '_', 'm', 'o', 'd', 'u', 'l', 'e', '_', '_'],
   ['_', '_', 'm', 'e', 'm', 'b', 'e', 'r', 's', '_', '_']]

/-- Result of a `getattr(SomeEnumClass, s)` lookup: either an enumeration
member (carrying its embedded value) or a resolved non-member class
attribute (a method or descriptor object, identified here by its name). -/
inductive AttrLookup (α : Type) where
  | member (v : α)
  | clsAttr (name : List Char)
deriving DecidableEq

/-- `getattr(Color, field)`: the field resolves to a `Color` member for
exactly "w" and "b", but any name in the class-attribute namespace (e.g.
"mro") also resolves — to a non-member object — without raising; only names
outside both fail. -/
def colorOfField (s : List Char) : Option (AttrLookup (Fin 2)) :=
  if s = ['w'] then some (.member 0)
  else if s = ['b'] then some (.member 1)
  else if s ∈ classAttrNames then some (.clsAttr s)
  else none

/-- `self.side_to_move.name`: member names are "w"/"b". On a non-member
class attribute the source raises `AttributeError` (such objects have no
`name`); that branch is never reached by any serialization proved in this
file and is left as the empty string. -/
def colorName : AttrLookup (Fin 2) → List Char
  | .member c => if c = 0 then ['w'] else ['b']
  | .clsAttr _ => []

/-- `getattr(CastlingAbility, ch)`: castling flag values K=1, Q=2, k=4, q=8. -/
def castlingOfChar (c : Char) : Option Nat :=
  if c = 'K' then some 1 else if c = 'Q' then some 2 else
  if c = 'k' then some 4 else if c = 'q' then some 8 else none

/-- `getattr(Bitboard, name)`: a two-character square name maps to the index
of the corresponding single-bit `Bitboard` member. -/
def squareIdxOfName : List Char → Option Nat
  | [f, r] =>
    if 97 ≤ f.toNat ∧ f.toNat ≤ 104 ∧ 49 ≤ r.toNat ∧ r.toNat ≤ 56 then
      some ((56 - r.toNat) * 8 + (f.toNat - 97))
    else none
  | _ => none

-- § Error kinds: one per distinct failure site of the source parser.

inductive FENErr where
  | invalidFEN
  | invalidPiece
  | invalidSquareIndex
  | invalidColor
  | invalidCastling
  | invalidSquareName
  | invalidInt
deriving DecidableEq, Repr

instance exceptDecEq {ε α : Type} [DecidableEq ε] [DecidableEq α] :
    DecidableEq (Except ε α) := fun x y =>
  match x, y with
  | .error a, .error b =>
    if h : a = b then isTrue (by rw [h]) else isFalse (fun he => h (Except.error.inj he))
  | .ok a, .ok b =>
    if h : a = b then isTrue (by rw [h]) else isFalse (fun he => h (Except.ok.inj he))
  | .error _, .ok _ => isFalse (fun he => Except.noConfusion he)
  | .ok _, .error _ => isFalse (fun he => Except.noConfusion he)

-- § Board aggregate

structure Board where
  piece_type_bitboards : Fin 6 → Nat
  color_bitboards : Fin 2 → Nat
  side_to_move : AttrLookup (Fin 2)
  castling_ability : Nat
  en_passant_target_square : AttrLookup Nat
  halfmove_clock : Int
  fullmove_counter : Int

/-- The board state right after `__init__` zeroes the bitboard lists and
before any field of the FEN has been consumed. -/
def emptyBoard : Board :=
  ⟨fun _ => 0, fun _ => 0, .member 0, 0, .member 0, 0, 1⟩

/-- `Board.place`: union the square's bit into the piece's type bitboard and
color bitboard. -/
def Board.place (b : Board) (piece : Fin 12) (square : Fin 64) : Board :=
  { b with
    piece_type_bitboards :=
      Function.update b.piece_type_bitboards (piece_type_of piece)
        (b.piece_type_bitboards (piece_type_of piece) ||| bitboard_from square),
    color_bitboards :=
      Function.update b.color_bitboards (color_of piece)
        (b.color_bitboards (color_of piece) ||| bitboard_from square) }

/-- `Board.piece_bitboard`: intersection of the piece's color bitboard and
piece-type bitboard. -/
def Board.piece_bitboard (b : Board) (piece : Fin 12) : Nat :=
  b.color_bitboards (color_of piece) &&& b.piece_type_bitboards (piece_type_of piece)

-- § Whitespace splitting (`str.split()` with no separator): split on runs of
-- whitespace, discarding empty pieces, including leading and trailing runs.

def splitWsAux : List Char → List Char → List (List Char)
  | [], acc => if acc = [] then [] else [acc.reverse]
  | c :: cs, acc =>
    if c.isWhitespace then
      (if acc = [] then [] else [acc.reverse]) ++ splitWsAux cs []
    else splitWsAux cs (c :: acc)

def splitWs (s : List Char) : List (List Char) := splitWsAux s []

-- § Separator splitting (`str.split('/')`): keeps empty pieces.

def splitOn (sep : Char) : List Char → List (List Char)
  | [] => [[]]
  | c :: cs =>
    if c = sep then [] :: splitOn sep cs
    else
      match splitOn sep cs with
      | [] => [[c]]
      | t :: ts => (c :: t) :: ts

-- § Piece-placement parsing: scan one rank string left to right with a file
-- cursor; digits advance the cursor, other characters are piece letters
-- placed at square_from(file, rank), validated to lie in 0..63 (the
-- `Square(...)` range check of the source).

def placeRank (rank : Nat) : Nat → Board → List Char → Except FENErr Board
  | _, b, [] => .ok b
  | file, b, c :: cs =>
    if c.isDigit then placeRank rank (file + (c.toNat - 48)) b cs
    else
      match pieceOfChar c with
      | none => .error .invalidPiece
      | some p =>
        if h : square_from file rank < 64 then
          placeRank rank (file + 1) (b.place p ⟨square_from file rank, h⟩) cs
        else .error .invalidSquareIndex

/-- Process `zip(Rank, piece_placement.split('/'))`: the zip truncates to the
shorter of the two lists. -/
def foldRanks (b : Board) : List (Nat × List Char) → Except FENErr Board
  | [] => .ok b
  | (r, s) :: rest =>
    match placeRank r 0 b s with
    | .error e => .error e
    | .ok b2 => foldRanks b2 rest

def parsePlacement (pp : List Char) : Except FENErr Board :=
  foldRanks emptyBoard ((List.range 8).zip (splitOn '/' pp))

-- § Remaining field parsers

def castlingFold : Nat → List Char → Except FENErr Nat
  | acc, [] => .ok acc
  | acc, c :: cs =>
    match castlingOfChar c with
    | none => .error .invalidCastling
    | some v => castlingFold (acc ||| v) cs

/-- Castling field: '-' means no ability; otherwise `reduce(or_, map(...))`
over the letters (failing on an empty sequence, which `split()` cannot
produce anyway). -/
def parseCastlingField (s : List Char) : Except FENErr Nat :=
  if s = ['-'] then .ok 0
  else
    match s with
    | [] => .error .invalidCastling
    | c :: cs =>
      match castlingOfChar c with
      | none => .error .invalidCastling
      | some v => castlingFold v cs

/-- En-passant field: '-' means empty; otherwise `getattr(Bitboard, field)`,
which resolves a square name to the corresponding single-bit member — but,
like every `getattr` on these classes, also resolves non-member class
attribute names (e.g. "mro") without raising. -/
def parseEPField (s : List Char) : Except FENErr (AttrLookup Nat) :=
  if s = ['-'] then .ok (.member 0)
  else
    match squareIdxOfName s with
    | some i => .ok (.member (1 <<< i))
    | none =>
      if s ∈ classAttrNames then .ok (.clsAttr s)
      else .error .invalidSquareName

/-- Python `int(...)` on a clock field: optional sign followed by a nonempty
digit string. -/
def parseNatDigits (s : List Char) : Option Nat :=
  if s ≠ [] ∧ s.all Char.isDigit then
    some (s.foldl (fun a c => a * 10 + (c.toNat - 48)) 0)
  else none

def parseIntField (s : List Char) : Except FENErr Int :=
  match s with
  | '-' :: rest =>
    match parseNatDigits rest with
    | none => .error .invalidInt
    | some n => .ok (-(n : Int))
  | '+' :: rest =>
    match parseNatDigits rest with
    | none => .error .invalidInt
    | some n => .ok (n : Int)
  | _ =>
    match parseNatDigits s with
    | none => .error .invalidInt
    | some n => .ok (n : Int)

def parseColorField (s : List Char) : Except FENErr (AttrLookup (Fin 2)) :=
  match colorOfField s with
  | none => .error .invalidColor
  | some v => .ok v

-- § Top-level parse (`Board.__init__`): the six fields are consumed in
-- source order, the first failure aborting the construction.

def parse6 (pp stm ca ep hc fc : List Char) : Except FENErr Board :=
  Except.bind (parsePlacement pp) fun b0 =>
  Except.bind (parseColorField stm) fun stmv =>
  Except.bind (parseCastlingField ca) fun cav =>
  Except.bind (parseEPField ep) fun epv =>
  Except.bind (parseIntField hc) fun hcv =>
  Except.bind (parseIntField fc) fun fcv =>
  .ok { b0 with
        side_to_move := stmv,
        castling_ability := cav,
        en_passant_target_square := epv,
        halfmove_clock := hcv,
        fullmove_counter := fcv }

/-- Tuple-unpacking of `fen.split()` into six names: any other field count
raises the `Invalid FEN` error. -/
def parseFields : List (List Char) → Except FENErr Board
  | [pp, stm, ca, ep, hc, fc] => parse6 pp stm ca ep hc fc
  | _ => .error .invalidFEN

def parseL (s : List Char) : Except FENErr Board := parseFields (splitWs s)

def parse (s : String) : Except FENErr Board := parseL s.data

-- § Serialization (`Board.to_fen` and `Board._str_board`)

/-- `_str_board`: a 64-cell character array, space for empty; for each of the
12 pieces in order, each square of its piece bitboard (ascending bit index)
receives the piece's letter. -/
def strBoard (b : Board) : List Char :=
  (List.finRange 12).foldl
    (fun arr p =>
      (List.range 64).foldl
        (fun arr2 sq =>
          if (b.piece_bitboard p).testBit sq then arr2.set sq (pieceChar p) else arr2)
        arr)
    (List.replicate 64 ' ')

def digitChar (n : Nat) : Char := Char.ofNat (48 + n)

def startsWith : List Char → List Char → Bool
  | [], _ => true
  | _ :: _, [] => false
  | p :: ps, c :: cs => p = c && startsWith ps cs

/-- `str.replace(pat, rep)`: replace every non-overlapping occurrence of
`pat`, scanning left to right. The `skip` counter consumes the remaining
characters of a match that has already been emitted. -/
def replaceAllGo (pat rep : List Char) : List Char → Nat → List Char
  | [], _ => []
  | _ :: cs, k + 1 => replaceAllGo pat rep cs k
  | c :: cs, 0 =>
    if startsWith pat (c :: cs) = true ∧ pat ≠ [] then
      rep ++ replaceAllGo pat rep cs (pat.length - 1)
    else c :: replaceAllGo pat rep cs 0

def replaceAll (pat rep s : List Char) : List Char := replaceAllGo pat rep s 0

/-- `_convert_spaces_to_digit`: successively replace runs of n spaces by the
digit n, for n from 8 down to 1. -/
def convertSpaces (s : List Char) : List Char :=
  [8, 7, 6, 5, 4, 3, 2, 1].foldl
    (fun acc n => replaceAll (List.replicate n ' ') [digitChar n] acc) s

def serializeCastling (ca : Nat) : List Char :=
  if ca = 0 then ['-']
  else
    (if ca &&& 1 ≠ 0 then ['K'] else []) ++
    (if ca &&& 2 ≠ 0 then ['Q'] else []) ++
    (if ca &&& 4 ≠ 0 then ['k'] else []) ++
    (if ca &&& 8 ≠ 0 then ['q'] else [])

/-- `self.en_passant_target_square.name if self.en_passant_target_square
else '-'`: an empty member bitboard is falsy and prints '-'; a singleton
member prints its square name. A stored non-member class attribute is truthy
but has no `name`, so the source raises `AttributeError`; that branch is
never reached by any serialization proved in this file and is left as the
empty string. -/
def epFieldName : AttrLookup Nat → List Char
  | .member bb => if bb = 0 then ['-'] else squareName (Nat.log2 bb)
  | .clsAttr _ => []

def natDigitsGo : Nat → Nat → List Char
  | _, 0 => []
  | n, fuel + 1 =>
    if n < 10 then [digitChar n]
    else natDigitsGo (n / 10) fuel ++ [digitChar (n % 10)]

/-- Python `str(n)` for a non-negative integer (the fuel `n + 1` always
suffices since a number has at most `n + 1` decimal digits). -/
def natDigits (n : Nat) : List Char := natDigitsGo n (n + 1)

def intDigits (i : Int) : List Char :=
  if i < 0 then '-' :: natDigits i.natAbs else natDigits i.natAbs

def toFenL (b : Board) : List Char :=
  let board := strBoard b
  List.intercalate [' ']
    [List.intercalate ['/']
      ((List.range 8).map fun rank =>
        convertSpaces ((board.drop (rank <<< 3)).take ((rank + 1) <<< 3 - (rank <<< 3)))),
     colorName b.side_to_move,
     serializeCastling b.castling_ability,
     epFieldName b.en_passant_target_square,
     intDigits b.halfmove_clock,
     intDigits b.fullmove_counter]

def toFen (b : Board) : String := ⟨toFenL b⟩

-- § Move notation (`Move.__str__`): flags en_passant=8, promotion=4,
-- special_1=2, special_0=1; `flag in self.flag` is a bit test.

structure Move where
  from_square : Fin 64
  to_square : Fin 64
  flag : Nat

def moveStr (m : Move) : List Char :=
  let uci := squareName m.from_square.val ++ squareName m.to_square.val
  if m.flag &&& 4 ≠ 0 then
    uci ++ [if m.flag &&& 2 ≠ 0 then (if m.flag &&& 1 ≠ 0 then 'q' else 'r')
            else (if m.flag &&& 1 ≠ 0 then 'b' else 'n')]
  else uci

/-- The promotion-letter decoding table as the specification states it
(section 3): nothing is appended unless the promotion flag is set, and
(special1, special0) select n, b, r, q. Stated from the spec's words, to be
compared with `moveStr` as translated from the source. -/
def promoSuffix (flag : Nat) : List Char :=
  if flag &&& 4 = 0 then []
  else if flag &&& 2 = 0 then (if flag &&& 1 = 0 then ['n'] else ['b'])
  else (if flag &&& 1 = 0 then ['r'] else ['q'])

-- § Joining fields back with single spaces (used to state the
-- whitespace-insensitivity of the top-level split).

def joinFields : List (List Char) → List Char
  | [] => []
  | [t] => t
  | t :: t2 :: ts => t ++ ' ' :: joinFields (t2 :: ts)

-- § Concrete FEN inputs used by the theorems below.

def initialFEN : String := "rnbqkbnr/pppppppp/8/8/8/8/PPPPPPPP/RNBQKBNR w KQkq - 0 1"

def missingFieldFEN : String := "rnbqkbnr/pppppppp/8/8/8/8/PPPPPPPP/RNBQKBNR w KQkq - 0"

def zeroNineFEN : String := "09/8/8/8/8/8/8/8 w - - 0 1"

def oneRankPlacement : String := "8"

def oneRankFEN : String := "8 w - - 0 1"

def twoRankFEN : String := "8/8 w - - 0 1"

def nineRankFEN : String := "8/8/8/8/8/8/8/4P3/rnbq w - - 0 1"

def eightRankFEN : String := "8/8/8/8/8/8/8/4P3 w - - 0 1"

def messyFEN : String := " rnbqkbnr/pppppppp/8/8/8/8/PPPPPPPP/RNBQKBNR \t\n w\t\tKQkq  -\n0  1 "

-- § Helper lemmas

theorem and_seven_four (f : Nat) : f &&& 7 &&& 4 = f &&& 4 := by
  rw [Nat.and_assoc, (by decide : (7 : Nat) &&& 4 = 4)]

theorem and_seven_two (f : Nat) : f &&& 7 &&& 2 = f &&& 2 := by
  rw [Nat.and_assoc, (by decide : (7 : Nat) &&& 2 = 2)]

theorem and_seven_one (f : Nat) : f &&& 7 &&& 1 = f &&& 1 := by
  rw [Nat.and_assoc, (by decide : (7 : Nat) &&& 1 = 1)]

theorem moveStr_eq_promo (m : Move) :
    moveStr m = squareName m.from_square.val ++ squareName m.to_square.val ++ promoSuffix m.flag := by
  simp only [moveStr, promoSuffix]
  by_cases h4 : m.flag &&& 4 = 0
  · simp [h4]
  · by_cases h2 : m.flag &&& 2 = 0 <;>
      by_cases h1 : m.flag &&& 1 = 0 <;> simp [h4, h2, h1] <;>
        (rw [Nat.and_one_is_mod] at h1
         have hm : m.flag % 2 = 1 := by omega
         simp [hm])

theorem promoSuffix_and_seven (f : Nat) : promoSuffix (f &&& 7) = promoSuffix f := by
  simp only [promoSuffix, and_seven_four, and_seven_two, and_seven_one]

-- § Claim theorems

/-- Claim C8: for every square s in 0..63, `square_from (file_of s) (rank_of s) = s`;
moreover `square_from file rank = rank*8 + file`, `file_of s = s % 8` and
`rank_of s = s / 8` on the stated domains, the functions being pure and total. -/
theorem square_addressing_roundtrip :
    (∀ s : Nat, s < 64 → square_from (file_of s) (rank_of s) = s) ∧
    (∀ f : Nat, f < 8 → ∀ r : Nat, r < 8 → square_from f r = r * 8 + f) ∧
    (∀ s : Nat, s < 64 → file_of s = s % 8 ∧ rank_of s = s / 8) := by
  refine ⟨?_, ?_, ?_⟩ <;> decide

/-- Witness for C8: the round-trip and the arithmetic formulas at concrete points. -/
theorem square_addressing_roundtrip_witness :
    square_from (file_of 37) (rank_of 37) = 37 ∧ square_from 3 5 = 5 * 8 + 3 :=
  ⟨square_addressing_roundtrip.1 37 (by decide),
   square_addressing_roundtrip.2.1 3 (by decide) 5 (by decide)⟩

/-- Claim C7: a rendered move is the from-square name then the to-square name,
with a promotion letter appended exactly when the promotion flag is set,
decoded from special1/special0 as (0,0)=n, (0,1)=b, (1,0)=r, (1,1)=q; bits
other than promotion/special1/special0 never affect the text; and the three
concrete moves render as "e2e4", "e7e8q", "e7e8r". -/
theorem move_render_correct :
    (∀ m : Move, moveStr m =
      squareName m.from_square.val ++ squareName m.to_square.val ++ promoSuffix m.flag) ∧
    (∀ m : Move, moveStr m = moveStr ⟨m.from_square, m.to_square, m.flag &&& 7⟩) ∧
    moveStr ⟨52, 36, 0⟩ = ['e', '2', 'e', '4'] ∧
    moveStr ⟨12, 4, 4 ||| 2 ||| 1⟩ = ['e', '7', 'e', '8', 'q'] ∧
    moveStr ⟨12, 4, 4 ||| 2⟩ = ['e', '7', 'e', '8', 'r'] := by
  refine ⟨moveStr_eq_promo, ?_, by decide, by decide, by decide⟩
  intro m
  rw [moveStr_eq_promo, moveStr_eq_promo]
  simp only [promoSuffix_and_seven]

/-- Claim C9: inside a rank string, any digit character is accepted — the scan
step on a digit c advances the file cursor by the digit's value without
raising an error — and in particular '0' and '9' are digits, so a placement
whose first rank string is "09" parses successfully. -/
theorem digit_scan_accepts_any_digit :
    (∀ (rank file : Nat) (b : Board) (c : Char) (cs : List Char), c.isDigit = true →
      placeRank rank file b (c :: cs) = placeRank rank (file + (c.toNat - 48)) b cs) ∧
    ('0'.isDigit = true ∧ '9'.isDigit = true) ∧
    (∃ b, parse zeroNineFEN = .ok b) := by
  refine ⟨?_, by decide, ⟨_, rfl⟩⟩
  intro rank file b c cs h
  simp [placeRank, h]

/-- Witness for C9: the scan step applied to the digit '0'. -/
theorem digit_scan_accepts_any_digit_witness :
    placeRank 0 0 emptyBoard ['0', '9'] =
      placeRank 0 (0 + ('0'.toNat - 48)) emptyBoard ['9'] :=
  digit_scan_accepts_any_digit.1 0 0 emptyBoard '0' ['9'] (by decide)

set_option maxRecDepth 100000 in
/-- Claim C1: serializing the board parsed from the standard initial FEN
returns exactly the input string. -/
theorem initial_fen_roundtrip :
    Except.map toFen (parse initialFEN) = .ok initialFEN := by
  rfl

theorem testBit_bitboard_from_self (sq : Fin 64) :
    (bitboard_from sq).testBit sq.val = true := by
  simp [bitboard_from, Nat.shiftLeft_eq, Nat.testBit_two_pow]

/-- Claim C2: if no bitboard of the board contains the square beforehand,
then after `place piece square` the piece's own `piece_bitboard` contains the
square and every other piece's `piece_bitboard` does not. -/
theorem place_isolated (b : Board) (piece : Fin 12) (square : Fin 64)
    (hT : ∀ t : Fin 6, (b.piece_type_bitboards t).testBit square.val = false)
    (hC : ∀ c : Fin 2, (b.color_bitboards c).testBit square.val = false) :
    ((b.place piece square).piece_bitboard piece).testBit square.val = true ∧
    ∀ p2 : Fin 12, p2 ≠ piece →
      ((b.place piece square).piece_bitboard p2).testBit square.val = false := by
  constructor
  · simp [Board.place, Board.piece_bitboard, Nat.testBit_land, Nat.testBit_lor,
      testBit_bitboard_from_self]
  · intro p2 hne
    have hsplit : piece_type_of p2 ≠ piece_type_of piece ∨ color_of p2 ≠ color_of piece := by
      by_contra hcon
      push_neg at hcon
      apply hne
      have h1 : p2.val % 6 = piece.val % 6 := congrArg Fin.val hcon.1
      have h2 : p2.val / 6 = piece.val / 6 := congrArg Fin.val hcon.2
      have hp2 := p2.isLt
      have hp := piece.isLt
      apply Fin.ext
      omega
    rcases hsplit with h | h
    · simp [Board.place, Board.piece_bitboard, Function.update_noteq h,
        Nat.testBit_land, hT]
    · simp [Board.place, Board.piece_bitboard, Function.update_noteq h,
        Nat.testBit_land, hC]

/-- Witness for C2: placing the white pawn on square 0 of the empty board
marks it in the pawn bitboard and in no other piece's bitboard. -/
theorem place_isolated_witness :
    ((emptyBoard.place 0 0).piece_bitboard 0).testBit 0 = true ∧
    ((emptyBoard.place 0 0).piece_bitboard 7).testBit 0 = false := by
  have h := place_isolated emptyBoard 0 0 (fun _ => by simp [emptyBoard])
    (fun _ => by simp [emptyBoard])
  exact ⟨h.1, h.2 7 (by decide)⟩

theorem castlingFold_ne_invalidFEN :
    ∀ (s : List Char) (acc : Nat), castlingFold acc s ≠ .error .invalidFEN := by
  intro s
  induction s with
  | nil => intro acc; simp [castlingFold]
  | cons c cs ih =>
    intro acc
    rcases h : castlingOfChar c with _ | v
    · simp [castlingFold, h]
    · simp only [castlingFold, h]
      exact ih _

theorem parseCastlingField_ne_invalidFEN (s : List Char) :
    parseCastlingField s ≠ .error .invalidFEN := by
  by_cases hd : s = ['-']
  · simp [parseCastlingField, hd]
  · rcases s with _ | ⟨c, cs⟩
    · simp [parseCastlingField]
    · rcases h : castlingOfChar c with _ | v
      · simp [parseCastlingField, hd, h]
      · simpa [parseCastlingField, hd, h] using castlingFold_ne_invalidFEN cs v

theorem placeRank_ne_invalidFEN (rank : Nat) :
    ∀ (l : List Char) (file : Nat) (b : Board),
      placeRank rank file b l ≠ .error .invalidFEN := by
  intro l
  induction l with
  | nil => intro file b; simp [placeRank]
  | cons c cs ih =>
    intro file b
    by_cases hd : c.isDigit = true
    · simp only [placeRank, if_pos hd]
      exact ih _ _
    · rcases hp : pieceOfChar c with _ | p
      · simp [placeRank, hd, hp]
      · simp only [placeRank, if_neg hd, hp]
        split
        · exact ih _ _
        · simp

theorem foldRanks_ne_invalidFEN :
    ∀ (l : List (Nat × List Char)) (b : Board), foldRanks b l ≠ .error .invalidFEN := by
  intro l
  induction l with
  | nil => intro b; simp [foldRanks]
  | cons p rest ih =>
    intro b
    rcases p with ⟨r, s⟩
    rcases h : placeRank r 0 b s with e | b2
    · have hne := placeRank_ne_invalidFEN r s 0 b
      rw [h] at hne
      simpa [foldRanks, h] using hne
    · simp only [foldRanks, h]
      exact ih _

theorem parsePlacement_ne_invalidFEN (pp : List Char) :
    parsePlacement pp ≠ .error .invalidFEN :=
  foldRanks_ne_invalidFEN _ _

theorem parseColorField_ne_invalidFEN (s : List Char) :
    parseColorField s ≠ .error .invalidFEN := by
  rcases h : colorOfField s with _ | v <;> simp [parseColorField, h]

theorem parseEPField_ne_invalidFEN (s : List Char) :
    parseEPField s ≠ .error .invalidFEN := by
  by_cases hd : s = ['-']
  · simp [parseEPField, hd]
  · rcases h : squareIdxOfName s with _ | i
    · by_cases hm : s ∈ classAttrNames <;> simp [parseEPField, hd, h, hm]
    · simp [parseEPField, hd, h]

theorem parseIntField_ne_invalidFEN (s : List Char) :
    parseIntField s ≠ .error .invalidFEN := by
  unfold parseIntField
  split <;> (split <;> simp)

theorem except_bind_ne {α β : Type} (ma : Except FENErr α) (f : α → Except FENErr β)
    (h1 : ma ≠ .error .invalidFEN) (h2 : ∀ a, f a ≠ .error .invalidFEN) :
    Except.bind ma f ≠ .error .invalidFEN := by
  cases ma with
  | error e => simpa [Except.bind] using h1
  | ok a => simpa [Except.bind] using h2 a

theorem parse6_ne_invalidFEN (pp stm ca ep hc fc : List Char) :
    parse6 pp stm ca ep hc fc ≠ .error .invalidFEN := by
  unfold parse6
  apply except_bind_ne _ _ (parsePlacement_ne_invalidFEN pp)
  intro b0
  apply except_bind_ne _ _ (parseColorField_ne_invalidFEN stm)
  intro stmv
  apply except_bind_ne _ _ (parseCastlingField_ne_invalidFEN ca)
  intro cav
  apply except_bind_ne _ _ (parseEPField_ne_invalidFEN ep)
  intro epv
  apply except_bind_ne _ _ (parseIntField_ne_invalidFEN hc)
  intro hcv
  apply except_bind_ne _ _ (parseIntField_ne_invalidFEN fc)
  intro fcv
  simp

/-- Claim C4: the parse fails with the `InvalidFEN` error exactly when the
input does not split into exactly 6 whitespace-separated fields; in
particular the initial FEN with its last field removed fails that way. -/
theorem invalid_fen_iff_field_count :
    (∀ s : String, parse s = .error .invalidFEN ↔ (splitWs s.data).length ≠ 6) ∧
    parse missingFieldFEN = .error .invalidFEN := by
  refine ⟨?_, rfl⟩
  intro s
  show parseFields (splitWs s.data) = .error .invalidFEN ↔ (splitWs s.data).length ≠ 6
  generalize splitWs s.data = l
  constructor
  · intro h hlen
    rcases l with _ | ⟨a, _ | ⟨b, _ | ⟨c, _ | ⟨d, _ | ⟨e, _ | ⟨f, _ | ⟨g, rest⟩⟩⟩⟩⟩⟩⟩ <;>
      simp_all
    exact parse6_ne_invalidFEN a b c d e f (by simpa [parseFields] using h)
  · intro hlen
    rcases l with _ | ⟨a, _ | ⟨b, _ | ⟨c, _ | ⟨d, _ | ⟨e, _ | ⟨f, _ | ⟨g, rest⟩⟩⟩⟩⟩⟩⟩
    · rfl
    · rfl
    · rfl
    · rfl
    · rfl
    · rfl
    · exact absurd rfl hlen
    · rfl

/-- The castling flag set the specification describes: the union of the flags
of the letters present in the field, depending only on which letters occur
(order-independent, duplicates idempotent). Stated from the spec's words, to
be compared with `parseCastlingField` as translated from the source. -/
def castlingMaskOf (s : List Char) : Nat :=
  (if 'K' ∈ s then 1 else 0) |||
    ((if 'Q' ∈ s then 2 else 0) |||
      ((if 'k' ∈ s then 4 else 0) ||| (if 'q' ∈ s then 8 else 0)))

theorem castlingMaskOf_cons (c : Char) (cs : List Char)
    (h : c = 'K' ∨ c = 'Q' ∨ c = 'k' ∨ c = 'q') :
    castlingMaskOf (c :: cs) = (castlingOfChar c).getD 0 ||| castlingMaskOf cs := by
  rcases h with h1 | h1 | h1 | h1 <;> subst h1 <;>
    simp +decide only [castlingMaskOf, castlingOfChar, List.mem_cons, Option.getD_some] <;>
    (by_cases m1 : 'K' ∈ cs <;> by_cases m2 : 'Q' ∈ cs <;>
      by_cases m3 : 'k' ∈ cs <;> by_cases m4 : 'q' ∈ cs <;>
      simp +decide [m1, m2, m3, m4])

theorem castlingFold_spec :
    ∀ (s : List Char) (acc : Nat),
      (∀ c ∈ s, c = 'K' ∨ c = 'Q' ∨ c = 'k' ∨ c = 'q') →
      castlingFold acc s = .ok (acc ||| castlingMaskOf s) := by
  intro s
  induction s with
  | nil =>
    intro acc h
    simp [castlingFold, castlingMaskOf]
  | cons c cs ih =>
    intro acc h
    have hcs : ∀ x ∈ cs, x = 'K' ∨ x = 'Q' ∨ x = 'k' ∨ x = 'q' :=
      fun x hx => h x (List.mem_cons_of_mem _ hx)
    rw [castlingMaskOf_cons _ _ (h c (List.mem_cons_self c cs))]
    obtain h1 | h1 | h1 | h1 := h c (List.mem_cons_self c cs) <;> subst h1 <;>
      (simp +decide [castlingFold, castlingOfChar]
       rw [ih _ hcs, Nat.or_assoc])

/-- Claim C6: castling-ability parsing depends only on which letters occur in
the field (so it is order-independent and idempotent under duplicate
letters), yielding the union of the flags of the present letters;
serialization emits the set flags in the canonical order K,Q,k,q (or '-'
when empty); the field "KQkq" round-trips to "KQkq" in that exact order and
"-" round-trips to "-". -/
theorem castling_order_independent_roundtrip :
    (∀ s : List Char, s ≠ [] →
      (∀ c ∈ s, c = 'K' ∨ c = 'Q' ∨ c = 'k' ∨ c = 'q') →
      parseCastlingField s = .ok (castlingMaskOf s)) ∧
    parseCastlingField ['K', 'Q', 'k', 'q'] = .ok 15 ∧
    serializeCastling 15 = ['K', 'Q', 'k', 'q'] ∧
    parseCastlingField ['-'] = .ok 0 ∧
    serializeCastling 0 = ['-'] := by
  refine ⟨?_, by decide, by decide, by decide, by decide⟩
  intro s hne hval
  rcases s with _ | ⟨c, cs⟩
  · exact absurd rfl hne
  · have hc := hval c (List.mem_cons_self c cs)
    have hcs : ∀ x ∈ cs, x = 'K' ∨ x = 'Q' ∨ x = 'k' ∨ x = 'q' :=
      fun x hx => hval x (List.mem_cons_of_mem _ hx)
    rw [castlingMaskOf_cons c cs hc]
    obtain h1 | h1 | h1 | h1 := hc <;> subst h1 <;>
      (simp +decide [parseCastlingField, castlingOfChar]
       rw [castlingFold_spec cs _ hcs])

/-- Witness for C6: a field with shuffled and duplicated castling letters
parses to the full flag set 15. -/
theorem castling_order_independent_roundtrip_witness :
    parseCastlingField ['q', 'K', 'K', 'k', 'Q'] = .ok 15 :=
  (castling_order_independent_roundtrip.1 ['q', 'K', 'K', 'k', 'Q'] (by decide)
    (by decide)).trans (by decide)

/-- Counterexample to C3 as stated: the FEN "8 w - - 0 1" has a
piece-placement field splitting into exactly 1 rank string, not 8, yet the
parse accepts it (`zip` silently truncates). -/
theorem rank_count_counterexample :
    splitWs oneRankFEN.data =
      [oneRankPlacement.data, ['w'], ['-'], ['-'], ['0'], ['1']] ∧
    (splitOn '/' oneRankPlacement.data).length = 1 ∧
    (∃ b, parse oneRankFEN = .ok b) :=
  ⟨by decide, by decide, ⟨_, rfl⟩⟩

theorem zip_range_aux {α : Type} :
    ∀ (n k i : Nat) (rs : List α),
      ((List.range' k n).zip rs)[i]? =
        if i < n then rs[i]?.map (fun t => (k + i, t)) else none := by
  intro n
  induction n with
  | zero => intro k i rs; simp [List.range']
  | succ n ih =>
    intro k i rs
    rcases rs with _ | ⟨t, ts⟩
    · simp
    · rcases i with _ | i
      · simp [List.range']
      · simp only [List.range', List.zip_cons_cons, List.getElem?_cons_succ]
        rw [ih (k + 1) i ts]
        by_cases hi : i < n
        · have he : k + 1 + i = k + (i + 1) := by omega
          simp [hi, he]
        · simp [hi]

theorem zip_range_eight {α : Type} (rs : List α) (i : Nat) :
    ((List.range 8).zip rs)[i]? =
      if i < 8 then rs[i]?.map (fun t => (i, t)) else none := by
  rw [List.range_eq_range', zip_range_aux]
  simp

set_option maxRecDepth 100000 in
/-- Claim C3 amended: the placement field is split on '/' and the i-th rank
string (for i < 8) is paired with rank ordinal i, but `zip(Rank, ...)`
truncates to the shorter list, so a placement with fewer than 8 rank strings
is accepted (remaining ranks left empty) and rank strings beyond the 8th are
ignored, as witnessed by a 2-rank FEN being accepted and a 9-rank FEN
parsing to the same board as its 8-rank truncation. -/
theorem placement_rank_pairing :
    (∀ pp : List Char,
      parsePlacement pp = foldRanks emptyBoard ((List.range 8).zip (splitOn '/' pp))) ∧
    (∀ (rs : List (List Char)) (i : Nat),
      ((List.range 8).zip rs)[i]? =
        if i < 8 then rs[i]?.map (fun t => (i, t)) else none) ∧
    (∃ b, parse twoRankFEN = .ok b) ∧
    (∃ b, parse nineRankFEN = .ok b ∧ parse eightRankFEN = .ok b) :=
  ⟨fun _ => rfl, fun rs i => zip_range_eight rs i, ⟨_, rfl⟩, ⟨_, rfl, rfl⟩⟩

theorem splitWsAux_tokens_wf :
    ∀ (s acc : List Char), (∀ c ∈ acc, c.isWhitespace = false) →
      ∀ t ∈ splitWsAux s acc, t ≠ [] ∧ ∀ c ∈ t, c.isWhitespace = false := by
  intro s
  induction s with
  | nil =>
    intro acc hacc t ht
    simp only [splitWsAux] at ht
    by_cases h : acc = []
    · simp [h] at ht
    · simp only [if_neg h, List.mem_singleton] at ht
      subst ht
      refine ⟨by simp [h], fun c hc => hacc c (List.mem_reverse.mp hc)⟩
  | cons c cs ih =>
    intro acc hacc t ht
    simp only [splitWsAux] at ht
    by_cases hw : c.isWhitespace = true
    · rw [if_pos hw] at ht
      rcases List.mem_append.mp ht with h1 | h2
      · by_cases h : acc = []
        · simp [h] at h1
        · simp only [if_neg h, List.mem_singleton] at h1
          subst h1
          exact ⟨by simp [h], fun x hx => hacc x (List.mem_reverse.mp hx)⟩
      · exact ih [] (by simp) t h2
    · rw [if_neg hw] at ht
      have hcw : c.isWhitespace = false := by simpa using hw
      refine ih (c :: acc) ?_ t ht
      intro x hx
      rcases List.mem_cons.mp hx with h | h
      · rw [h]; exact hcw
      · exact hacc x h

theorem splitWsAux_append_token :
    ∀ (t : List Char), (∀ c ∈ t, c.isWhitespace = false) →
      ∀ (acc rest : List Char),
        splitWsAux (t ++ rest) acc = splitWsAux rest (t.reverse ++ acc) := by
  intro t
  induction t with
  | nil => intro h acc rest; simp
  | cons c ts ih =>
    intro h acc rest
    have hc : c.isWhitespace = false := h c (List.mem_cons_self c ts)
    rw [List.cons_append, splitWsAux, hc, if_neg Bool.false_ne_true,
      ih (fun x hx => h x (List.mem_cons_of_mem _ hx)) (c :: acc) rest]
    simp [List.append_assoc]

theorem splitWs_joinFields :
    ∀ l : List (List Char),
      (∀ t ∈ l, t ≠ [] ∧ ∀ c ∈ t, c.isWhitespace = false) →
      splitWs (joinFields l) = l := by
  intro l
  induction l with
  | nil => intro h; rfl
  | cons t rest ih =>
    intro h
    obtain ⟨ht1, ht2⟩ := h t (List.mem_cons_self t rest)
    rcases rest with _ | ⟨t2, ts⟩
    · show splitWsAux (joinFields [t]) [] = [t]
      rw [show joinFields [t] = t from rfl, ← List.append_nil t,
        splitWsAux_append_token t ht2 [] []]
      simp [splitWsAux, ht1]
    · have hrest : ∀ x ∈ t2 :: ts, x ≠ [] ∧ ∀ c ∈ x, c.isWhitespace = false :=
        fun x hx => h x (List.mem_cons_of_mem _ hx)
      show splitWsAux (joinFields (t :: t2 :: ts)) [] = t :: t2 :: ts
      rw [show joinFields (t :: t2 :: ts) = t ++ ' ' :: joinFields (t2 :: ts) from rfl,
        splitWsAux_append_token t ht2 [] (' ' :: joinFields (t2 :: ts))]
      have hws : (' ').isWhitespace = true := rfl
      simp only [splitWsAux, hws, if_pos, List.append_nil]
      have := ih hrest
      simp only [splitWs] at this
      simp [ht1, this]

theorem parseL_eq_of_splitWs_eq {a b : List Char} (h : splitWs a = splitWs b) :
    parseL a = parseL b := by
  unfold parseL
  rw [h]

/-- Claim C10: the top-level split is on arbitrary runs of whitespace
(spaces, tabs, newlines, leading/trailing), so every input parses exactly as
its whitespace-separated fields rejoined with single spaces; concretely, a
FEN written with tabs, newlines and repeated or leading/trailing spaces
parses to the same board as the single-space initial FEN. -/
theorem whitespace_insensitive_parse :
    (∀ s : List Char, parseL s = parseL (joinFields (splitWs s))) ∧
    parse messyFEN = parse initialFEN := by
  constructor
  · intro s
    exact parseL_eq_of_splitWs_eq
      (splitWs_joinFields (splitWs s)
        (fun t ht => splitWsAux_tokens_wf s [] (by simp) t ht)).symm
  · exact parseL_eq_of_splitWs_eq (by decide)
